import Mathlib

/-!
Verification of the dwave-preprocessing presolve wrapper and its presolve engine.

The repository source under verification is the Python module
dwave/preprocessing/presolve/pypresolve.py, which defines the exception type
InfeasibleModelError and the Presolver class wrapping the native cyPresolver
engine.  The wrapper's apply method translates the engine's RuntimeError with
message text infeasible into the distinguished InfeasibleModelError.

The native presolve engine itself (cyPresolver) is not part of the repository
sources available here; where a property depends on the engine it is modelled
from the specification, with each such definition marked in its doc comment.

Rational values are represented by the executable fraction type Frac, a
numerator over a positive denominator, with semantics given by Frac.toRat.
-/

/- ===== generic list access helpers ===== -/

theorem getq_set_self {α : Type} (l : List α) (n : Nat) (a : α) (h : n < l.length) :
    (l.set n a)[n]? = some a := by
  induction l generalizing n with
  | nil => simp at h
  | cons x xs ih =>
      cases n with
      | zero => simp
      | succ m => simpa using ih m (by simpa using h)

theorem getq_set_other {α : Type} (l : List α) (n m : Nat) (a : α) (h : n ≠ m) :
    (l.set n a)[m]? = l[m]? := by
  induction l generalizing n m with
  | nil => simp
  | cons x xs ih =>
      cases n with
      | zero =>
          cases m with
          | zero => exact absurd rfl h
          | succ k => simp
      | succ n' =>
          cases m with
          | zero => simp
          | succ k => simpa using ih n' k (by omega)

theorem getq_lt_length {α : Type} (l : List α) (n : Nat) (a : α)
    (h : l[n]? = some a) : n < l.length := by
  induction l generalizing n with
  | nil => simp at h
  | cons x xs ih =>
      cases n with
      | zero => simp
      | succ m =>
          simp only [List.getElem?_cons_succ] at h
          simpa using Nat.succ_lt_succ (ih m h)

/- ===== executable fractions ===== -/

/-- An executable rational number: the value num / (den1 + 1).  Keeping the
denominator in the form den1 + 1 makes it positive by construction, and all
arithmetic below stays within integer operations the kernel can evaluate. -/
structure Frac where
  num : ℤ
  den1 : ℕ
deriving DecidableEq, Repr

def Frac.ofInt (n : ℤ) : Frac := ⟨n, 0⟩

instance (n : Nat) : OfNat Frac n := ⟨⟨(n : ℤ), 0⟩⟩

def Frac.addQ (a b : Frac) : Frac :=
  ⟨a.num * (b.den1 + 1) + b.num * (a.den1 + 1), (a.den1 + 1) * (b.den1 + 1) - 1⟩

def Frac.negQ (a : Frac) : Frac := ⟨-a.num, a.den1⟩

def Frac.subQ (a b : Frac) : Frac := a.addQ b.negQ

def Frac.mulQ (a b : Frac) : Frac :=
  ⟨a.num * b.num, (a.den1 + 1) * (b.den1 + 1) - 1⟩

def Frac.divQ (a b : Frac) : Frac :=
  if b.num = 0 then ⟨0, 0⟩
  else if 0 < b.num then ⟨a.num * (b.den1 + 1), (a.den1 + 1) * b.num.natAbs - 1⟩
  else ⟨-(a.num * (b.den1 + 1)), (a.den1 + 1) * b.num.natAbs - 1⟩

instance : Add Frac := ⟨Frac.addQ⟩
instance : Neg Frac := ⟨Frac.negQ⟩
instance : Sub Frac := ⟨Frac.subQ⟩
instance : Mul Frac := ⟨Frac.mulQ⟩
instance : Div Frac := ⟨Frac.divQ⟩

/-- Order on fractions by cross multiplication (denominators positive). -/
def Frac.ble (a b : Frac) : Bool := decide (a.num * (b.den1 + 1) ≤ b.num * (a.den1 + 1))

def Frac.blt (a b : Frac) : Bool := decide (a.num * (b.den1 + 1) < b.num * (a.den1 + 1))

/-- Value equality of fractions (not representation equality). -/
def Frac.beqv (a b : Frac) : Bool := decide (a.num * (b.den1 + 1) = b.num * (a.den1 + 1))

def Frac.isZero (a : Frac) : Bool := a.num == 0

def Frac.isPos (a : Frac) : Bool := decide (0 < a.num)

def Frac.qmin (a b : Frac) : Frac := if a.ble b then a else b

def Frac.qmax (a b : Frac) : Frac := if a.ble b then b else a

def Frac.floorQ (a : Frac) : ℤ := a.num.fdiv (a.den1 + 1)

def Frac.ceilQ (a : Frac) : ℤ := -((-a.num).fdiv (a.den1 + 1))

/-- The rational value denoted by a fraction. -/
def Frac.toRat (a : Frac) : ℚ := (a.num : ℚ) / ((a.den1 : ℚ) + 1)

theorem Frac.den_cast_pos (a : Frac) : (0 : ℚ) < (a.den1 : ℚ) + 1 := by positivity

theorem Frac.ble_iff (a b : Frac) : Frac.ble a b = true ↔ a.toRat ≤ b.toRat := by
  rw [Frac.ble, Frac.toRat, Frac.toRat, decide_eq_true_iff,
    div_le_div_iff₀ (Frac.den_cast_pos a) (Frac.den_cast_pos b)]
  constructor
  · intro h; exact_mod_cast h
  · intro h; exact_mod_cast h

theorem Frac.blt_iff (a b : Frac) : Frac.blt a b = true ↔ a.toRat < b.toRat := by
  rw [Frac.blt, Frac.toRat, Frac.toRat, decide_eq_true_iff,
    div_lt_div_iff₀ (Frac.den_cast_pos a) (Frac.den_cast_pos b)]
  constructor
  · intro h; exact_mod_cast h
  · intro h; exact_mod_cast h

theorem Frac.beqv_iff (a b : Frac) : Frac.beqv a b = true ↔ a.toRat = b.toRat := by
  rw [Frac.beqv, Frac.toRat, Frac.toRat, decide_eq_true_iff,
    div_eq_div_iff (ne_of_gt (Frac.den_cast_pos a)) (ne_of_gt (Frac.den_cast_pos b))]
  constructor
  · intro h; exact_mod_cast h
  · intro h; exact_mod_cast h

theorem Frac.toRat_ofNat (n : ℕ) : Frac.toRat (OfNat.ofNat n) = (n : ℚ) := by
  show ((n : ℤ) : ℚ) / (((0 : ℕ) : ℚ) + 1) = (n : ℚ)
  norm_num

/- ===== Python exception classes (from pypresolve.py and the standard hierarchy) ===== -/

/-- Python exception classes relevant to pypresolve.py.  The source declares
InfeasibleModelError as a direct subclass of ValueError. -/
inductive PyExcClass
  | baseException
  | exception
  | valueError
  | runtimeError
  | infeasibleModelError
deriving DecidableEq, Repr

/-- Direct base class of each exception class; from the source line
class InfeasibleModelError(ValueError) together with the standard Python
hierarchy ValueError, RuntimeError < Exception < BaseException. -/
def pyParent : PyExcClass → Option PyExcClass
  | .baseException => none
  | .exception => some .baseException
  | .valueError => some .exception
  | .runtimeError => some .exception
  | .infeasibleModelError => some .valueError

def ancestorsUpTo : Nat → PyExcClass → List PyExcClass
  | 0, _ => []
  | n + 1, c =>
      match pyParent c with
      | none => []
      | some p => p :: ancestorsUpTo n p

def ancestors (c : PyExcClass) : List PyExcClass := ancestorsUpTo 8 c

/-- c is d or inherits from d. -/
def isSubclass (c d : PyExcClass) : Bool := c == d || (ancestors c).contains d

/-- An except clause for class handler catches an instance of class raised. -/
def catches (handler raised : PyExcClass) : Bool := isSubclass raised handler

/- ===== the apply wrapper of pypresolve.py ===== -/

def infeasibleMsg : String := "infeasible"
def infeasibleCqmMsg : String := "given CQM is infeasible"

/-- Outcome of the underlying cyPresolver.apply call: normal return, a
RuntimeError with a message, or an exception of some other class (which the
wrapper's except RuntimeError clause does not catch). -/
inductive CyApplyOutcome
  | ok
  | runtimeError (msg : String)
  | otherExc (msg : String)
deriving DecidableEq, Repr

/-- Python-level error surfaced by Presolver.apply; an InfeasibleModelError
carries its message and the message of the RuntimeError it was raised from. -/
inductive PyError
  | infeasibleModelError (msg : String) (cause : String)
  | runtimeError (msg : String)
  | otherError (msg : String)
deriving DecidableEq, Repr

/-- Class of a surfaced Python error. -/
def PyError.cls : PyError → PyExcClass
  | .infeasibleModelError _ _ => .infeasibleModelError
  | .runtimeError _ => .runtimeError
  | .otherError _ => .exception

/-- Embeds Presolver.apply of pypresolve.py: call the engine; a RuntimeError
whose text compares equal to infeasible is re-raised as InfeasibleModelError
(from the original error); any other exception propagates unchanged. -/
def Presolver.apply : CyApplyOutcome → Except PyError Unit
  | .ok => Except.ok ()
  | .runtimeError msg =>
      if msg = infeasibleMsg then
        Except.error (PyError.infeasibleModelError infeasibleCqmMsg msg)
      else
        Except.error (PyError.runtimeError msg)
  | .otherExc msg => Except.error (PyError.otherError msg)

/- ===== spec-modelled presolve engine: data model ===== -/

/-- Modelled from the spec: variable type, REAL, INTEGER or BINARY. -/
inductive Vartype
  | real
  | integer
  | binary
deriving DecidableEq, Repr

/-- Modelled from the spec: a variable with its type and lower/upper bounds;
none stands for an infinite bound (minus infinity for lb, plus infinity
for ub). -/
structure Var where
  vtype : Vartype
  lb : Option Frac
  ub : Option Frac
deriving DecidableEq, Repr

/-- Modelled from the spec: comparison sense of a constraint. -/
inductive Sense
  | le
  | ge
  | eq
deriving DecidableEq, Repr

/-- Modelled from the spec: a linear constraint, expression (terms plus
constant offset) compared against a right-hand side. -/
structure Constr where
  terms : List (Nat × Frac)
  offset : Frac
  sense : Sense
  rhs : Frac
deriving DecidableEq, Repr

/-- Modelled from the spec: the external CQM shape consumed and produced by
the engine: variables, constraints and a minimization objective. -/
structure Cqm where
  vars : List Var
  constrs : List Constr
  objTerms : List (Nat × Frac)
  objOffset : Frac
deriving DecidableEq, Repr

/-- Modelled from the spec: one restoration record per eliminated variable,
either a fixed value or an affine relation to other variables. -/
inductive RestoreRecord
  | fixed (origVar : Nat) (value : Frac)
  | substituted (origVar : Nat) (terms : List (Nat × Frac)) (c : Frac)
deriving DecidableEq, Repr

/-- Modelled from the spec: the mutable working model of the Model Store,
with variable slots tombstoned on removal (compaction happens only at
detach) and the append-only restoration records. -/
structure Working where
  vars : List (Option Var)
  constrs : List Constr
  objTerms : List (Nat × Frac)
  objOffset : Frac
  records : List RestoreRecord
deriving DecidableEq, Repr

/- ===== bound order helpers ===== -/

/-- Lower-bound order, none standing for minus infinity. -/
def lbLe : Option Frac → Option Frac → Bool
  | none, _ => true
  | some _, none => false
  | some a, some b => Frac.ble a b

/-- Upper-bound order, none standing for plus infinity. -/
def ubLe : Option Frac → Option Frac → Bool
  | _, none => true
  | none, some _ => false
  | some a, some b => Frac.ble a b

/-- Lower bound is at most a finite value. -/
def lbLeQ : Option Frac → Frac → Bool
  | none, _ => true
  | some l, q => Frac.ble l q

/-- A finite value is at most an upper bound. -/
def qLeUb : Frac → Option Frac → Bool
  | _, none => true
  | q, some u => Frac.ble q u

/-- A variable's bounds do not cross. -/
def consistentVar (v : Var) : Bool :=
  match v.lb, v.ub with
  | some l, some u => Frac.ble l u
  | _, _ => true

def Working.getVar (w : Working) (i : Nat) : Option Var :=
  match w.vars[i]? with
  | some (some v) => some v
  | _ => none

def Working.setVar (w : Working) (i : Nat) (v : Var) : Working :=
  { w with vars := w.vars.set i (some v) }

/-- Modelled from the spec: integer and binary variables round new lower
bounds up to an integer. -/
def roundLower (t : Vartype) (q : Frac) : Frac :=
  match t with
  | .real => q
  | _ => Frac.ofInt q.ceilQ

/-- Modelled from the spec: integer and binary variables round new upper
bounds down to an integer. -/
def roundUpper (t : Vartype) (q : Frac) : Frac :=
  match t with
  | .real => q
  | _ => Frac.ofInt q.floorQ

/- ===== Bound Tracker: tighten primitives ===== -/

/-- A candidate upper bound strictly improves the current one. -/
def ubImproves (v : Var) (q' : Frac) : Bool :=
  match v.ub with
  | none => true
  | some u => Frac.blt q' u

/-- A candidate lower bound strictly improves the current one. -/
def lbImproves (v : Var) (q' : Frac) : Bool :=
  match v.lb with
  | none => true
  | some l => Frac.blt l q'

/-- Modelled from the spec: tighten_upper updates the upper bound only if the
(rounded) value strictly improves the existing one, raises the Infeasible
signal instead of producing lower greater than upper, and reports whether
anything changed. -/
def tightenUpper (w : Working) (i : Nat) (q : Frac) : Except Unit (Working × Bool) :=
  match w.getVar i with
  | none => Except.ok (w, false)
  | some v =>
      if ubImproves v (roundUpper v.vtype q) then
        if lbLeQ v.lb (roundUpper v.vtype q) then
          Except.ok (w.setVar i { v with ub := some (roundUpper v.vtype q) }, true)
        else Except.error ()
      else Except.ok (w, false)

/-- Modelled from the spec: tighten_lower, mirror of tighten_upper. -/
def tightenLower (w : Working) (i : Nat) (q : Frac) : Except Unit (Working × Bool) :=
  match w.getVar i with
  | none => Except.ok (w, false)
  | some v =>
      if lbImproves v (roundLower v.vtype q) then
        if qLeUb (roundLower v.vtype q) v.ub then
          Except.ok (w.setVar i { v with lb := some (roundLower v.vtype q) }, true)
        else Except.error ()
      else Except.ok (w, false)

/- ===== technique 1: bound propagation from constraints ===== -/

def mulOpt (a : Frac) : Option Frac → Option Frac
  | none => none
  | some q => some (a * q)

def addOpt : Option Frac → Option Frac → Option Frac
  | some a, some b => some (a + b)
  | _, _ => none

/-- Least possible value of the term a * x_i under current bounds
(none standing for unbounded below). -/
def termMin (w : Working) (i : Nat) (a : Frac) : Option Frac :=
  if a.isZero then some 0
  else
    match w.getVar i with
    | none => none
    | some v => if a.isPos then mulOpt a v.lb else mulOpt a v.ub

/-- Greatest possible value of the term a * x_i under current bounds. -/
def termMax (w : Working) (i : Nat) (a : Frac) : Option Frac :=
  if a.isZero then some 0
  else
    match w.getVar i with
    | none => none
    | some v => if a.isPos then mulOpt a v.ub else mulOpt a v.lb

def sumMin (w : Working) : List (Nat × Frac) → Option Frac
  | [] => some 0
  | (i, a) :: rest => addOpt (termMin w i a) (sumMin w rest)

def sumMax (w : Working) : List (Nat × Frac) → Option Frac
  | [] => some 0
  | (i, a) :: rest => addOpt (termMax w i a) (sumMax w rest)

/-- Modelled from the spec: implied bound on the term a * x_i of an
expression constrained to be at most rhs, derived from the least possible
value of the other terms. -/
def propagateUpperFromLe (w : Working) (others : List (Nat × Frac)) (i : Nat) (a : Frac)
    (offset rhs : Frac) : Except Unit (Working × Bool) :=
  if a.isZero then Except.ok (w, false)
  else
    match sumMin w others with
    | none => Except.ok (w, false)
    | some m =>
        if a.isPos then tightenUpper w i ((rhs - offset - m) / a)
        else tightenLower w i ((rhs - offset - m) / a)

/-- Modelled from the spec: implied bound on the term a * x_i of an
expression constrained to be at least rhs, derived from the greatest
possible value of the other terms. -/
def propagateLowerFromGe (w : Working) (others : List (Nat × Frac)) (i : Nat) (a : Frac)
    (offset rhs : Frac) : Except Unit (Working × Bool) :=
  if a.isZero then Except.ok (w, false)
  else
    match sumMax w others with
    | none => Except.ok (w, false)
    | some m =>
        if a.isPos then tightenLower w i ((rhs - offset - m) / a)
        else tightenUpper w i ((rhs - offset - m) / a)

def propagateTerm (w : Working) (c : Constr) (others : List (Nat × Frac)) (i : Nat)
    (a : Frac) : Except Unit (Working × Bool) :=
  match c.sense with
  | .le => propagateUpperFromLe w others i a c.offset c.rhs
  | .ge => propagateLowerFromGe w others i a c.offset c.rhs
  | .eq =>
      match propagateUpperFromLe w others i a c.offset c.rhs with
      | Except.error e => Except.error e
      | Except.ok (w1, ch1) =>
          match propagateLowerFromGe w1 others i a c.offset c.rhs with
          | Except.error e => Except.error e
          | Except.ok (w2, ch2) => Except.ok (w2, ch1 || ch2)

def propagateTerms (w : Working) (c : Constr) (done : List (Nat × Frac)) :
    List (Nat × Frac) → Except Unit (Working × Bool)
  | [] => Except.ok (w, false)
  | (i, a) :: rest =>
      match propagateTerm w c (done ++ rest) i a with
      | Except.error e => Except.error e
      | Except.ok (w1, ch1) =>
          match propagateTerms w1 c (done ++ [(i, a)]) rest with
          | Except.error e => Except.error e
          | Except.ok (w2, ch2) => Except.ok (w2, ch1 || ch2)

def propagateConstr (w : Working) (c : Constr) : Except Unit (Working × Bool) :=
  propagateTerms w c [] c.terms

def propagateConstrs (w : Working) : List Constr → Except Unit (Working × Bool)
  | [] => Except.ok (w, false)
  | c :: rest =>
      match propagateConstr w c with
      | Except.error e => Except.error e
      | Except.ok (w1, ch1) =>
          match propagateConstrs w1 rest with
          | Except.error e => Except.error e
          | Except.ok (w2, ch2) => Except.ok (w2, ch1 || ch2)

/-- Modelled from the spec: bound propagation technique, feeding implied
bounds of every constraint into the Bound Tracker. -/
def boundPropagation (w : Working) : Except Unit (Working × Bool) :=
  propagateConstrs w w.constrs

/- ===== technique 2: implicit fixing ===== -/

/-- Modelled from the spec: is_fixed, true exactly when lower equals upper. -/
def isFixedVar (v : Var) : Option Frac :=
  match v.lb, v.ub with
  | some l, some u => if Frac.beqv l u then some l else none
  | _, _ => none

/-- Remove every term of variable i from a term list, returning the list and
the total coefficient removed. -/
def substConstant (i : Nat) : List (Nat × Frac) → List (Nat × Frac) × Frac
  | [] => ([], 0)
  | (j, a) :: rest =>
      let r := substConstant i rest
      if j = i then (r.1, a + r.2) else ((j, a) :: r.1, r.2)

def foldFixedIntoConstr (i : Nat) (q : Frac) (c : Constr) : Constr :=
  let r := substConstant i c.terms
  { c with terms := r.1, offset := c.offset + r.2 * q }

/-- Modelled from the spec: fixing a variable folds its value into every
expression it appears in, records the fixed value for restoration and
tombstones the variable slot. -/
def fixVariable (w : Working) (i : Nat) (q : Frac) : Working :=
  { vars := w.vars.set i none
    constrs := w.constrs.map (foldFixedIntoConstr i q)
    objTerms := (substConstant i w.objTerms).1
    objOffset := w.objOffset + (substConstant i w.objTerms).2 * q
    records := w.records ++ [RestoreRecord.fixed i q] }

def fixIndices (w : Working) : List Nat → Working × Bool
  | [] => (w, false)
  | i :: rest =>
      match w.getVar i with
      | none => fixIndices w rest
      | some v =>
          match isFixedVar v with
          | none => fixIndices w rest
          | some q => ((fixIndices (fixVariable w i q) rest).1, true)

/-- Modelled from the spec: implicit fixing technique; every variable whose
bounds meet in a point is fixed to that point. -/
def implicitFixing (w : Working) : Except Unit (Working × Bool) :=
  Except.ok (fixIndices w (List.range w.vars.length))

/- ===== technique 3: trivial constraint removal ===== -/

/-- Modelled from the spec: a constraint that can never violate its sense
and right-hand side under current bounds. -/
def constrAlwaysTrue (w : Working) (c : Constr) : Bool :=
  match c.sense with
  | .le =>
      match sumMax w c.terms with
      | some m => Frac.ble (c.offset + m) c.rhs
      | none => false
  | .ge =>
      match sumMin w c.terms with
      | some m => Frac.ble c.rhs (c.offset + m)
      | none => false
  | .eq =>
      match sumMin w c.terms, sumMax w c.terms with
      | some m, some bigM => Frac.beqv (c.offset + m) c.rhs && Frac.beqv (c.offset + bigM) c.rhs
      | _, _ => false

/-- Modelled from the spec: a constraint that can never be satisfied under
current bounds. -/
def constrNeverTrue (w : Working) (c : Constr) : Bool :=
  match c.sense with
  | .le =>
      match sumMin w c.terms with
      | some m => Frac.blt c.rhs (c.offset + m)
      | none => false
  | .ge =>
      match sumMax w c.terms with
      | some m => Frac.blt (c.offset + m) c.rhs
      | none => false
  | .eq =>
      (match sumMin w c.terms with
       | some m => Frac.blt c.rhs (c.offset + m)
       | none => false)
      ||
      (match sumMax w c.terms with
       | some m => Frac.blt (c.offset + m) c.rhs
       | none => false)

def filterConstrs (w : Working) : List Constr → Except Unit (List Constr × Bool)
  | [] => Except.ok ([], false)
  | c :: rest =>
      if constrNeverTrue w c then Except.error ()
      else
        match filterConstrs w rest with
        | Except.error e => Except.error e
        | Except.ok (cs, ch) =>
            if constrAlwaysTrue w c then Except.ok (cs, true)
            else Except.ok (c :: cs, ch)

/-- Modelled from the spec: trivial constraint removal technique; always
satisfied constraints are removed, never satisfiable ones raise Infeasible. -/
def trivialRemoval (w : Working) : Except Unit (Working × Bool) :=
  match filterConstrs w w.constrs with
  | Except.error e => Except.error e
  | Except.ok (cs, ch) => Except.ok ({ w with constrs := cs }, ch)

/- ===== technique 4: singleton-variable substitution ===== -/

def occursIn (i : Nat) (ts : List (Nat × Frac)) : Bool :=
  ts.any (fun t => t.1 == i && !t.2.isZero)

def constrsWith (i : Nat) (cs : List Constr) : List Nat :=
  (List.range cs.length).filter (fun k =>
    match cs[k]? with
    | some c => occursIn i c.terms
    | none => false)

def coeffOf (i : Nat) : List (Nat × Frac) → Frac
  | [] => 0
  | (j, a) :: rest => (if j = i then a else 0) + coeffOf i rest

/-- Modelled from the spec: substitute out a free (unbounded both ways)
variable appearing in exactly one constraint, recording the affine relation
and removing that constraint. -/
def trySubstVar (w : Working) (i : Nat) : Option Working :=
  match w.getVar i with
  | none => none
  | some v =>
      if v.lb.isNone && v.ub.isNone && !(occursIn i w.objTerms) then
        match constrsWith i w.constrs with
        | [k] =>
            match w.constrs[k]? with
            | some c =>
                if c.sense = Sense.eq then
                  let a := coeffOf i c.terms
                  if a.isZero then none
                  else
                    some { vars := w.vars.set i none
                           constrs := w.constrs.eraseIdx k
                           objTerms := w.objTerms
                           objOffset := w.objOffset
                           records := w.records ++
                             [RestoreRecord.substituted i
                               ((c.terms.filter (fun t => !(t.1 == i))).map
                                 (fun t => (t.1, (-t.2) / a)))
                               ((c.rhs - c.offset) / a)] }
                else none
            | none => none
        | _ => none
      else none

def substFirst (w : Working) : List Nat → Working × Bool
  | [] => (w, false)
  | i :: rest =>
      match trySubstVar w i with
      | some w' => (w', true)
      | none => substFirst w rest

/-- Modelled from the spec: singleton-variable substitution technique. -/
def singletonSubstitution (w : Working) : Except Unit (Working × Bool) :=
  Except.ok (substFirst w (List.range w.vars.length))

/- ===== technique 5: duplicate constraint detection ===== -/

inductive DupResult
  | distinct
  | merged (c : Constr)
  | clash
deriving DecidableEq, Repr

def termsScaled (k : Frac) : List (Nat × Frac) → List (Nat × Frac) → Bool
  | [], [] => true
  | (i, a) :: r1, (j, b) :: r2 => i == j && Frac.beqv b (k * a) && termsScaled k r1 r2
  | _, _ => false

def scaleFactor (c1 c2 : Constr) : Option Frac :=
  match c1.terms, c2.terms with
  | (_, a) :: _, (_, b) :: _ =>
      if a.isZero then none
      else
        let k := b / a
        if k.isPos && termsScaled k c1.terms c2.terms && Frac.beqv c2.offset (k * c1.offset) then
          some k
        else none
  | _, _ => none

/-- Modelled from the spec: two constraints with the same sense whose
expressions agree up to a positive scalar multiple are merged keeping the
tighter right-hand side; equality constraints with clashing sides are
infeasible together. -/
def mergeDup (c1 c2 : Constr) : DupResult :=
  if c1.sense = c2.sense then
    match scaleFactor c1 c2 with
    | none => DupResult.distinct
    | some k =>
        match c1.sense with
        | .le => DupResult.merged { c1 with rhs := Frac.qmin c1.rhs (c2.rhs / k) }
        | .ge => DupResult.merged { c1 with rhs := Frac.qmax c1.rhs (c2.rhs / k) }
        | .eq =>
            if Frac.beqv c1.rhs (c2.rhs / k) then DupResult.merged c1 else DupResult.clash
  else DupResult.distinct

def insertDedup (c : Constr) : List Constr → Except Unit (List Constr × Bool)
  | [] => Except.ok ([c], false)
  | k :: rest =>
      match mergeDup k c with
      | DupResult.clash => Except.error ()
      | DupResult.merged k' => Except.ok (k' :: rest, true)
      | DupResult.distinct =>
          match insertDedup c rest with
          | Except.error e => Except.error e
          | Except.ok (rest', ch) => Except.ok (k :: rest', ch)

def dedupFold (kept : List Constr) : List Constr → Except Unit (List Constr × Bool)
  | [] => Except.ok (kept, false)
  | c :: rest =>
      match insertDedup c kept with
      | Except.error e => Except.error e
      | Except.ok (kept', ch1) =>
          match dedupFold kept' rest with
          | Except.error e => Except.error e
          | Except.ok (kept'', ch2) => Except.ok (kept'', ch1 || ch2)

/-- Modelled from the spec: duplicate constraint detection technique. -/
def duplicateRemoval (w : Working) : Except Unit (Working × Bool) :=
  match dedupFold [] w.constrs with
  | Except.error e => Except.error e
  | Except.ok (cs, ch) => Except.ok ({ w with constrs := cs }, ch)

/- ===== Presolve Loop / Scheduler ===== -/

/-- Modelled from the spec: the Technique Library catalog. -/
inductive Technique
  | boundProp
  | implicitFix
  | trivialC
  | singletonSub
  | duplicateC
deriving DecidableEq, Repr

def runTechnique : Technique → Working → Except Unit (Working × Bool)
  | .boundProp, w => boundPropagation w
  | .implicitFix, w => implicitFixing w
  | .trivialC, w => trivialRemoval w
  | .singletonSub, w => singletonSubstitution w
  | .duplicateC, w => duplicateRemoval w

/-- Modelled from the spec: the default configuration enables every
technique, in the order the spec lists them. -/
def defaultTechniques : List Technique :=
  [Technique.boundProp, Technique.implicitFix, Technique.trivialC,
   Technique.singletonSub, Technique.duplicateC]

def runPass (w : Working) : List Technique → Except Unit (Working × Bool)
  | [] => Except.ok (w, false)
  | t :: rest =>
      match runTechnique t w with
      | Except.error e => Except.error e
      | Except.ok (w1, ch1) =>
          match runPass w1 rest with
          | Except.error e => Except.error e
          | Except.ok (w2, ch2) => Except.ok (w2, ch1 || ch2)

/-- Modelled from the spec: the iteration cap of the presolve loop. -/
def iterationCap : Nat := 64

/-- Modelled from the spec: repeat passes until a whole pass makes no change
or the iteration cap is reached (both treated as convergence); an Infeasible
signal from any technique halts the loop immediately. -/
def runLoop (ts : List Technique) : Nat → Working → Except Unit Working
  | 0, w => Except.ok w
  | fuel + 1, w =>
      match runPass w ts with
      | Except.error e => Except.error e
      | Except.ok (w', ch) => if ch then runLoop ts fuel w' else Except.ok w'

/- ===== engine state and external interface ===== -/

/-- Modelled from the spec: scheduler state machine READY, CONVERGED or
INFEASIBLE. -/
inductive Status
  | ready
  | converged
  | infeasible
deriving DecidableEq, Repr

/-- Modelled from the spec: engine failure kinds, each a distinct error. -/
inductive EngErr
  | infeasible
  | useAfterDetach
  | invalidConfiguration
deriving DecidableEq, Repr

/-- Modelled from the spec: an engine instance: working model, enabled
techniques, scheduler status and the detached flag. -/
structure Engine where
  work : Working
  techniques : List Technique
  status : Status
  detachedFlag : Bool
deriving DecidableEq, Repr

/-- Modelled from the spec: ingest constructs the internal index-labeled
copy of the model. -/
def ingest (c : Cqm) : Working :=
  { vars := c.vars.map some
    constrs := c.constrs
    objTerms := c.objTerms
    objOffset := c.objOffset
    records := [] }

def emptyCqm : Cqm := { vars := [], constrs := [], objTerms := [], objOffset := 0 }

/-- Modelled from the spec: construction; the first component is the new
engine, the second is the caller's model after construction (emptied when
move is true, untouched otherwise). -/
def presolverNew (c : Cqm) (move : Bool) : Engine × Cqm :=
  ({ work := ingest c
     techniques := []
     status := Status.ready
     detachedFlag := false },
   if move then emptyCqm else c)

/-- Modelled from the spec: enable the default technique set; configuration
changes are possible only before infeasibility is declared. -/
def Engine.loadDefaultPresolvers (e : Engine) : Engine :=
  if e.status = Status.infeasible then e else { e with techniques := defaultTechniques }

/-- Modelled from the spec: select an explicit technique set; configuration
changes are possible only before infeasibility is declared. -/
def Engine.configure (e : Engine) (ts : List Technique) : Engine :=
  if e.status = Status.infeasible then e else { e with techniques := ts }

/-- Modelled from the spec: the engine-level apply: after INFEASIBLE the same
error is re-raised without re-running techniques; after CONVERGED apply is a
no-op; otherwise the loop runs and the status moves to CONVERGED or
INFEASIBLE; using the engine after detach is a distinct error. -/
def Engine.applyEngine (e : Engine) : Engine × Option EngErr :=
  match e.status with
  | Status.infeasible => (e, some EngErr.infeasible)
  | Status.converged =>
      if e.detachedFlag then (e, some EngErr.useAfterDetach) else (e, none)
  | Status.ready =>
      if e.detachedFlag then (e, some EngErr.useAfterDetach)
      else
        match runLoop e.techniques iterationCap e.work with
        | Except.ok w' => ({ e with work := w', status := Status.converged }, none)
        | Except.error _ => ({ e with status := Status.infeasible }, some EngErr.infeasible)

def compactIndex (vars : List (Option Var)) (i : Nat) : Nat :=
  ((vars.take i).filter Option.isSome).length

def compactTerms (vars : List (Option Var)) (ts : List (Nat × Frac)) : List (Nat × Frac) :=
  ts.map (fun t => (compactIndex vars t.1, t.2))

def compactConstr (vars : List (Option Var)) (c : Constr) : Constr :=
  { c with terms := compactTerms vars c.terms }

/-- Modelled from the spec: the freshly indexed standalone model produced at
detach time, with tombstoned slots compacted away. -/
def detachCqm (w : Working) : Cqm :=
  { vars := w.vars.filterMap id
    constrs := w.constrs.map (compactConstr w.vars)
    objTerms := compactTerms w.vars w.objTerms
    objOffset := w.objOffset }

/-- Modelled from the spec: detach_model consumes the model exactly once;
a second call fails with UseAfterDetach. -/
def Engine.detachModel (e : Engine) : Except EngErr Cqm × Engine :=
  if e.detachedFlag then (Except.error EngErr.useAfterDetach, e)
  else (Except.ok (detachCqm e.work), { e with detachedFlag := true })

/- ===== restoration ===== -/

def isActiveSlot : Option Var → Bool
  | some _ => true
  | none => false

def activeIndices (vars : List (Option Var)) : List Nat :=
  (List.range vars.length).filter (fun i =>
    match vars[i]? with
    | some s => isActiveSlot s
    | none => false)

def lookupQ : List (Nat × Frac) → Nat → Option Frac
  | [], _ => none
  | (j, q) :: rest, i => if j = i then some q else lookupQ rest i

def evalAffine (s : List (Nat × Frac)) : List (Nat × Frac) → Frac → Frac
  | [], c => c
  | (j, b) :: rest, c => b * ((lookupQ s j).getD 0) + evalAffine s rest c

def applyRecord (s : List (Nat × Frac)) : RestoreRecord → List (Nat × Frac)
  | RestoreRecord.fixed i q => (i, q) :: s
  | RestoreRecord.substituted i ts c => (i, evalAffine s ts c) :: s

/-- Modelled from the spec: restoration replays records in reverse insertion
order, newest first. -/
def replayRecords : List RestoreRecord → List (Nat × Frac) → List (Nat × Frac)
  | [], s => s
  | r :: rest, s => applyRecord (replayRecords rest s) r

/-- Modelled from the spec: restore maps a reduced-space sample back to
original-space: reduced indices are mapped through the surviving slots, then
the restoration records are replayed in reverse insertion order. -/
def Engine.restore (e : Engine) (reduced : List (Nat × Frac)) : List (Nat × Frac) :=
  let surv := activeIndices e.work.vars
  let base := reduced.filterMap (fun t => (surv[t.1]?).map (fun j => (j, t.2)))
  replayRecords e.work.records base

/- ===== operation sequences over an engine ===== -/

/-- Modelled from the spec: the engine operations a caller can invoke after
construction; used to state frame properties over arbitrary later activity. -/
inductive EngineOp
  | opApply
  | opDetach
  | opLoadDefault
  | opConfigure (ts : List Technique)
deriving DecidableEq, Repr

def stepOp (e : Engine) : EngineOp → Engine
  | EngineOp.opApply => (Engine.applyEngine e).1
  | EngineOp.opDetach => (Engine.detachModel e).2
  | EngineOp.opLoadDefault => Engine.loadDefaultPresolvers e
  | EngineOp.opConfigure ts => Engine.configure e ts

def runOps (e : Engine) : List EngineOp → Engine
  | [] => e
  | op :: rest => runOps (stepOp e op) rest

/- ===== full python-level apply pipeline ===== -/

def detachedMsg : String := "presolver has been detached"
def invalidConfigMsg : String := "invalid technique"

/-- Modelled from the spec: the message carried by the RuntimeError the
native engine raises for each failure kind; infeasibility uses the exact
text infeasible, all other failures use distinct texts. -/
def engErrMessage : EngErr → String
  | EngErr.infeasible => infeasibleMsg
  | EngErr.useAfterDetach => detachedMsg
  | EngErr.invalidConfiguration => invalidConfigMsg

def cyOutcome : Option EngErr → CyApplyOutcome
  | none => CyApplyOutcome.ok
  | some err => CyApplyOutcome.runtimeError (engErrMessage err)

/-- The python-level apply: run the engine, then translate the outcome
through the wrapper of pypresolve.py. -/
def Presolver.applyPy (e : Engine) : Engine × Except PyError Unit :=
  ((Engine.applyEngine e).1, Presolver.apply (cyOutcome (Engine.applyEngine e).2))

/- ===== order lemmas on bounds ===== -/

theorem Frac.ble_refl (a : Frac) : Frac.ble a a = true := by
  simp [Frac.ble]

theorem Frac.ble_trans (a b c : Frac) (h1 : Frac.ble a b = true) (h2 : Frac.ble b c = true) :
    Frac.ble a c = true := by
  rw [Frac.ble_iff] at h1 h2 ⊢
  exact le_trans h1 h2

theorem lbLe_refl (a : Option Frac) : lbLe a a = true := by
  cases a with
  | none => rfl
  | some q => simpa [lbLe] using Frac.ble_refl q

theorem ubLe_refl (a : Option Frac) : ubLe a a = true := by
  cases a with
  | none => rfl
  | some q => simpa [ubLe] using Frac.ble_refl q

theorem lbLe_trans (a b c : Option Frac) (h1 : lbLe a b = true) (h2 : lbLe b c = true) :
    lbLe a c = true := by
  cases a with
  | none => rfl
  | some qa =>
      cases b with
      | none => simp [lbLe] at h1
      | some qb =>
          cases c with
          | none => simp [lbLe] at h2
          | some qc => exact Frac.ble_trans qa qb qc h1 h2

theorem ubLe_trans (a b c : Option Frac) (h1 : ubLe a b = true) (h2 : ubLe b c = true) :
    ubLe a c = true := by
  cases c with
  | none => cases a <;> rfl
  | some qc =>
      cases b with
      | none => simp [ubLe] at h2
      | some qb =>
          cases a with
          | none => simp [ubLe] at h1
          | some qa => exact Frac.ble_trans qa qb qc h1 h2

/- ===== the inward-bounds relation ===== -/

/-- Bounds of every variable alive on both sides only moved inward. -/
def boundsInward (w w' : Working) : Prop :=
  ∀ i v v', w.getVar i = some v → w'.getVar i = some v' →
    lbLe v.lb v'.lb = true ∧ ubLe v'.ub v.ub = true

/-- One reduction step only moves bounds inward: every variable alive
afterwards was alive before with bounds at least as wide. -/
def inward (w w' : Working) : Prop :=
  w'.vars.length = w.vars.length ∧
  ∀ i v', w'.getVar i = some v' →
    ∃ v, w.getVar i = some v ∧ lbLe v.lb v'.lb = true ∧ ubLe v'.ub v.ub = true

theorem inward_refl (w : Working) : inward w w := by
  refine ⟨rfl, ?_⟩
  intro i v' h
  exact ⟨v', h, lbLe_refl _, ubLe_refl _⟩

theorem inward_trans (w1 w2 w3 : Working) (h1 : inward w1 w2) (h2 : inward w2 w3) :
    inward w1 w3 := by
  refine ⟨h2.1.trans h1.1, ?_⟩
  intro i v3 h3
  obtain ⟨v2, hv2, hlb2, hub2⟩ := h2.2 i v3 h3
  obtain ⟨v1, hv1, hlb1, hub1⟩ := h1.2 i v2 hv2
  exact ⟨v1, hv1, lbLe_trans _ _ _ hlb1 hlb2, ubLe_trans _ _ _ hub2 hub1⟩

theorem boundsInward_of_inward (w w' : Working) (h : inward w w') : boundsInward w w' := by
  intro i v v' hv hv'
  obtain ⟨v0, hv0, hlb, hub⟩ := h.2 i v' hv'
  rw [hv] at hv0
  injection hv0 with hv0
  subst hv0
  exact ⟨hlb, hub⟩

theorem getVar_congr (w w' : Working) (h : w'.vars = w.vars) (i : Nat) :
    w'.getVar i = w.getVar i := by
  unfold Working.getVar
  rw [h]

theorem inward_of_vars_eq (w w' : Working) (h : w'.vars = w.vars) : inward w w' := by
  refine ⟨by rw [h], ?_⟩
  intro i v' hv'
  rw [getVar_congr w w' h] at hv'
  exact ⟨v', hv', lbLe_refl _, ubLe_refl _⟩

theorem getVar_lt_length (w : Working) (i : Nat) (v : Var) (h : w.getVar i = some v) :
    i < w.vars.length := by
  unfold Working.getVar at h
  cases hv : w.vars[i]? with
  | none => rw [hv] at h; simp at h
  | some s => exact getq_lt_length _ _ _ hv

theorem getVar_set_none (w w' : Working) (i : Nat) (h : w'.vars = w.vars.set i none) :
    ∀ j, w'.getVar j = if j = i then none else w.getVar j := by
  intro j
  unfold Working.getVar
  rw [h]
  by_cases hj : j = i
  · subst hj
    rw [if_pos rfl]
    by_cases hlen : j < w.vars.length
    · rw [getq_set_self _ _ _ hlen]
    · rw [List.getElem?_eq_none (by simpa using Nat.le_of_not_lt hlen)]
  · rw [if_neg hj, getq_set_other _ _ _ _ (fun hh => hj hh.symm)]

theorem inward_of_set_none (w w' : Working) (i : Nat) (h : w'.vars = w.vars.set i none) :
    inward w w' := by
  refine ⟨by rw [h]; simp, ?_⟩
  intro j v' hv'
  rw [getVar_set_none w w' i h j] at hv'
  by_cases hj : j = i
  · rw [if_pos hj] at hv'; simp at hv'
  · rw [if_neg hj] at hv'
    exact ⟨v', hv', lbLe_refl _, ubLe_refl _⟩

theorem inward_of_set_update (w w' : Working) (i : Nat) (v v' : Var)
    (hv : w.getVar i = some v) (h : w'.vars = w.vars.set i (some v'))
    (hlb : lbLe v.lb v'.lb = true) (hub : ubLe v'.ub v.ub = true) : inward w w' := by
  have hlen : i < w.vars.length := getVar_lt_length w i v hv
  refine ⟨by rw [h]; simp, ?_⟩
  intro j u' hu'
  by_cases hj : j = i
  · subst hj
    unfold Working.getVar at hu'
    rw [h, getq_set_self _ _ _ hlen] at hu'
    injection hu' with hu'
    subst hu'
    exact ⟨v, hv, hlb, hub⟩
  · unfold Working.getVar at hu'
    rw [h, getq_set_other _ _ _ _ (fun hh => hj hh.symm)] at hu'
    exact ⟨u', hu', lbLe_refl _, ubLe_refl _⟩

theorem Frac.ble_of_blt (a b : Frac) (h : Frac.blt a b = true) : Frac.ble a b = true := by
  rw [Frac.blt_iff] at h
  rw [Frac.ble_iff]
  exact le_of_lt h

theorem getVar_setVar (w : Working) (i : Nat) (v0 v : Var) (hv : w.getVar i = some v0) :
    ∀ j, (w.setVar i v).getVar j = if j = i then some v else w.getVar j := by
  intro j
  have hlen : i < w.vars.length := getVar_lt_length w i v0 hv
  unfold Working.getVar Working.setVar
  by_cases hj : j = i
  · subst hj
    rw [if_pos rfl]
    show (match (w.vars.set j (some v))[j]? with
          | some (some u) => some u
          | _ => none) = some v
    rw [getq_set_self _ _ _ hlen]
  · rw [if_neg hj]
    show (match (w.vars.set i (some v))[j]? with
          | some (some u) => some u
          | _ => none) =
         (match w.vars[j]? with
          | some (some u) => some u
          | _ => none)
    rw [getq_set_other _ _ _ _ (fun hh => hj hh.symm)]

/- ===== invariant bundle preserved by bound propagation ===== -/

/-- All variables of the working model have non-crossing bounds. -/
def consistentW (w : Working) : Prop :=
  ∀ i v, w.getVar i = some v → consistentVar v = true

/-- What one propagation step preserves: bounds move inward, no variable
disappears, and consistency of bounds is maintained. -/
def propInv (w w' : Working) : Prop :=
  inward w w' ∧
  (∀ i v, w.getVar i = some v → ∃ v', w'.getVar i = some v') ∧
  (consistentW w → consistentW w')

theorem propInv_refl (w : Working) : propInv w w :=
  ⟨inward_refl w, fun i v h => ⟨v, h⟩, fun h => h⟩

theorem propInv_trans (w1 w2 w3 : Working) (h1 : propInv w1 w2) (h2 : propInv w2 w3) :
    propInv w1 w3 := by
  refine ⟨inward_trans _ _ _ h1.1 h2.1, ?_, fun hc => h2.2.2 (h1.2.2 hc)⟩
  intro i v h
  obtain ⟨v2, hv2⟩ := h1.2.1 i v h
  exact h2.2.1 i v2 hv2

theorem tightenUpper_propInv (w : Working) (i : Nat) (q : Frac) (w' : Working) (ch : Bool)
    (h : tightenUpper w i q = Except.ok (w', ch)) : propInv w w' := by
  unfold tightenUpper at h
  cases hv : w.getVar i with
  | none =>
      rw [hv] at h
      cases h
      exact propInv_refl w
  | some v =>
      rw [hv] at h
      simp only [] at h
      by_cases h1 : ubImproves v (roundUpper v.vtype q) = true
      · rw [if_pos h1] at h
        by_cases h2 : lbLeQ v.lb (roundUpper v.vtype q) = true
        · rw [if_pos h2] at h
          cases h
          refine ⟨?_, ?_, ?_⟩
          · refine inward_of_set_update w _ i v _ hv rfl (lbLe_refl _) ?_
            unfold ubImproves at h1
            cases hu : v.ub with
            | none => rfl
            | some u =>
                rw [hu] at h1
                show Frac.ble (roundUpper v.vtype q) u = true
                exact Frac.ble_of_blt _ _ h1
          · intro j u hj
            rw [getVar_setVar w i v _ hv j]
            by_cases hji : j = i
            · rw [if_pos hji]; exact ⟨_, rfl⟩
            · rw [if_neg hji]; exact ⟨u, hj⟩
          · intro hc j u hj
            rw [getVar_setVar w i v _ hv j] at hj
            by_cases hji : j = i
            · rw [if_pos hji] at hj
              injection hj with hj
              subst hj
              unfold consistentVar
              cases hlb : v.lb with
              | none => rfl
              | some l =>
                  rw [hlb] at h2
                  exact h2
            · rw [if_neg hji] at hj
              exact hc j u hj
        · rw [if_neg h2] at h
          cases h
      · rw [if_neg h1] at h
        cases h
        exact propInv_refl w

theorem tightenLower_propInv (w : Working) (i : Nat) (q : Frac) (w' : Working) (ch : Bool)
    (h : tightenLower w i q = Except.ok (w', ch)) : propInv w w' := by
  unfold tightenLower at h
  cases hv : w.getVar i with
  | none =>
      rw [hv] at h
      cases h
      exact propInv_refl w
  | some v =>
      rw [hv] at h
      simp only [] at h
      by_cases h1 : lbImproves v (roundLower v.vtype q) = true
      · rw [if_pos h1] at h
        by_cases h2 : qLeUb (roundLower v.vtype q) v.ub = true
        · rw [if_pos h2] at h
          cases h
          refine ⟨?_, ?_, ?_⟩
          · refine inward_of_set_update w _ i v _ hv rfl ?_ (ubLe_refl _)
            unfold lbImproves at h1
            cases hl : v.lb with
            | none => rfl
            | some l =>
                rw [hl] at h1
                show Frac.ble l (roundLower v.vtype q) = true
                exact Frac.ble_of_blt _ _ h1
          · intro j u hj
            rw [getVar_setVar w i v _ hv j]
            by_cases hji : j = i
            · rw [if_pos hji]; exact ⟨_, rfl⟩
            · rw [if_neg hji]; exact ⟨u, hj⟩
          · intro hc j u hj
            rw [getVar_setVar w i v _ hv j] at hj
            by_cases hji : j = i
            · rw [if_pos hji] at hj
              injection hj with hj
              subst hj
              unfold consistentVar
              cases hub : v.ub with
              | none => rfl
              | some u' =>
                  rw [hub] at h2
                  exact h2
            · rw [if_neg hji] at hj
              exact hc j u hj
        · rw [if_neg h2] at h
          cases h
      · rw [if_neg h1] at h
        cases h
        exact propInv_refl w

theorem propagateUpperFromLe_propInv (w : Working) (others : List (Nat × Frac)) (i : Nat)
    (a offset rhs : Frac) (w' : Working) (ch : Bool)
    (h : propagateUpperFromLe w others i a offset rhs = Except.ok (w', ch)) : propInv w w' := by
  unfold propagateUpperFromLe at h
  by_cases h0 : a.isZero = true
  · rw [if_pos h0] at h
    cases h
    exact propInv_refl w
  · rw [if_neg h0] at h
    cases hm : sumMin w others with
    | none =>
        rw [hm] at h
        cases h
        exact propInv_refl w
    | some m =>
        rw [hm] at h
        simp only [] at h
        by_cases hp : a.isPos = true
        · rw [if_pos hp] at h
          exact tightenUpper_propInv _ _ _ _ _ h
        · rw [if_neg hp] at h
          exact tightenLower_propInv _ _ _ _ _ h

theorem propagateLowerFromGe_propInv (w : Working) (others : List (Nat × Frac)) (i : Nat)
    (a offset rhs : Frac) (w' : Working) (ch : Bool)
    (h : propagateLowerFromGe w others i a offset rhs = Except.ok (w', ch)) : propInv w w' := by
  unfold propagateLowerFromGe at h
  by_cases h0 : a.isZero = true
  · rw [if_pos h0] at h
    cases h
    exact propInv_refl w
  · rw [if_neg h0] at h
    cases hm : sumMax w others with
    | none =>
        rw [hm] at h
        cases h
        exact propInv_refl w
    | some m =>
        rw [hm] at h
        simp only [] at h
        by_cases hp : a.isPos = true
        · rw [if_pos hp] at h
          exact tightenLower_propInv _ _ _ _ _ h
        · rw [if_neg hp] at h
          exact tightenUpper_propInv _ _ _ _ _ h

theorem propagateTerm_propInv (w : Working) (c : Constr) (others : List (Nat × Frac))
    (i : Nat) (a : Frac) (w' : Working) (ch : Bool)
    (h : propagateTerm w c others i a = Except.ok (w', ch)) : propInv w w' := by
  unfold propagateTerm at h
  cases hs : c.sense with
  | le =>
      rw [hs] at h
      simp only [] at h
      exact propagateUpperFromLe_propInv _ _ _ _ _ _ _ _ h
  | ge =>
      rw [hs] at h
      simp only [] at h
      exact propagateLowerFromGe_propInv _ _ _ _ _ _ _ _ h
  | eq =>
      rw [hs] at h
      simp only [] at h
      cases h1 : propagateUpperFromLe w others i a c.offset c.rhs with
      | error e => rw [h1] at h; cases h
      | ok p1 =>
          obtain ⟨w1, ch1⟩ := p1
          rw [h1] at h
          simp only [] at h
          cases h2 : propagateLowerFromGe w1 others i a c.offset c.rhs with
          | error e => rw [h2] at h; cases h
          | ok p2 =>
              obtain ⟨w2, ch2⟩ := p2
              rw [h2] at h
              simp only [] at h
              cases h
              exact propInv_trans _ _ _
                (propagateUpperFromLe_propInv _ _ _ _ _ _ _ _ h1)
                (propagateLowerFromGe_propInv _ _ _ _ _ _ _ _ h2)

theorem propagateTerms_propInv (c : Constr) (ts : List (Nat × Frac)) :
    ∀ (w : Working) (done : List (Nat × Frac)) (w' : Working) (ch : Bool),
      propagateTerms w c done ts = Except.ok (w', ch) → propInv w w' := by
  induction ts with
  | nil =>
      intro w done w' ch h
      unfold propagateTerms at h
      cases h
      exact propInv_refl w
  | cons p rest ih =>
      intro w done w' ch h
      obtain ⟨i, a⟩ := p
      unfold propagateTerms at h
      cases h1 : propagateTerm w c (done ++ rest) i a with
      | error e => rw [h1] at h; cases h
      | ok p1 =>
          obtain ⟨w1, ch1⟩ := p1
          rw [h1] at h
          simp only [] at h
          cases h2 : propagateTerms w1 c (done ++ [(i, a)]) rest with
          | error e => rw [h2] at h; cases h
          | ok p2 =>
              obtain ⟨w2, ch2⟩ := p2
              rw [h2] at h
              simp only [] at h
              cases h
              exact propInv_trans _ _ _
                (propagateTerm_propInv _ _ _ _ _ _ _ h1)
                (ih _ _ _ _ h2)

theorem propagateConstr_propInv (w : Working) (c : Constr) (w' : Working) (ch : Bool)
    (h : propagateConstr w c = Except.ok (w', ch)) : propInv w w' :=
  propagateTerms_propInv c c.terms w [] w' ch h

theorem propagateConstrs_propInv (cs : List Constr) :
    ∀ (w : Working) (w' : Working) (ch : Bool),
      propagateConstrs w cs = Except.ok (w', ch) → propInv w w' := by
  induction cs with
  | nil =>
      intro w w' ch h
      unfold propagateConstrs at h
      cases h
      exact propInv_refl w
  | cons c rest ih =>
      intro w w' ch h
      unfold propagateConstrs at h
      cases h1 : propagateConstr w c with
      | error e => rw [h1] at h; cases h
      | ok p1 =>
          obtain ⟨w1, ch1⟩ := p1
          rw [h1] at h
          simp only [] at h
          cases h2 : propagateConstrs w1 rest with
          | error e => rw [h2] at h; cases h
          | ok p2 =>
              obtain ⟨w2, ch2⟩ := p2
              rw [h2] at h
              simp only [] at h
              cases h
              exact propInv_trans _ _ _
                (propagateConstr_propInv _ _ _ _ h1)
                (ih _ _ _ h2)

theorem boundPropagation_propInv (w : Working) (w' : Working) (ch : Bool)
    (h : boundPropagation w = Except.ok (w', ch)) : propInv w w' :=
  propagateConstrs_propInv w.constrs w w' ch h

/- ===== every technique only moves bounds inward ===== -/

theorem fixIndices_inward (ixs : List Nat) :
    ∀ w : Working, inward w (fixIndices w ixs).1 := by
  induction ixs with
  | nil => intro w; exact inward_refl w
  | cons i rest ih =>
      intro w
      unfold fixIndices
      cases hv : w.getVar i with
      | none => exact ih w
      | some v =>
          simp only []
          cases hf : isFixedVar v with
          | none => exact ih w
          | some q =>
              exact inward_trans _ _ _
                (inward_of_set_none w (fixVariable w i q) i rfl)
                (ih (fixVariable w i q))

theorem implicitFixing_inward (w : Working) (w' : Working) (ch : Bool)
    (h : implicitFixing w = Except.ok (w', ch)) : inward w w' := by
  unfold implicitFixing at h
  injection h with h
  have hw : w' = (fixIndices w (List.range w.vars.length)).1 := (congrArg Prod.fst h).symm
  rw [hw]
  exact fixIndices_inward _ w

theorem trivialRemoval_inward (w : Working) (w' : Working) (ch : Bool)
    (h : trivialRemoval w = Except.ok (w', ch)) : inward w w' := by
  unfold trivialRemoval at h
  cases hf : filterConstrs w w.constrs with
  | error e => rw [hf] at h; cases h
  | ok p =>
      obtain ⟨cs, ch0⟩ := p
      rw [hf] at h
      simp only [] at h
      cases h
      exact inward_of_vars_eq w _ rfl

theorem trySubstVar_vars (w : Working) (i : Nat) (w' : Working)
    (h : trySubstVar w i = some w') : w'.vars = w.vars.set i none := by
  unfold trySubstVar at h
  cases hv : w.getVar i with
  | none => rw [hv] at h; cases h
  | some v =>
      rw [hv] at h
      simp only [] at h
      by_cases hfree : (v.lb.isNone && v.ub.isNone && !occursIn i w.objTerms) = true
      · rw [if_pos hfree] at h
        cases hcw : constrsWith i w.constrs with
        | nil => rw [hcw] at h; cases h
        | cons k ks =>
            cases ks with
            | nil =>
                rw [hcw] at h
                simp only [] at h
                cases hc : w.constrs[k]? with
                | none => rw [hc] at h; cases h
                | some c =>
                    rw [hc] at h
                    simp only [] at h
                    by_cases hsense : c.sense = Sense.eq
                    · rw [if_pos hsense] at h
                      by_cases hz : (coeffOf i c.terms).isZero = true
                      · rw [if_pos hz] at h; cases h
                      · rw [if_neg hz] at h
                        injection h with h
                        rw [← h]
                    · rw [if_neg hsense] at h; cases h
            | cons k2 ks2 => rw [hcw] at h; cases h
      · rw [if_neg hfree] at h; cases h

theorem substFirst_inward (ixs : List Nat) :
    ∀ w : Working, inward w (substFirst w ixs).1 := by
  induction ixs with
  | nil => intro w; exact inward_refl w
  | cons i rest ih =>
      intro w
      unfold substFirst
      cases hts : trySubstVar w i with
      | none => exact ih w
      | some w2 => exact inward_of_set_none w w2 i (trySubstVar_vars w i w2 hts)

theorem singletonSubstitution_inward (w : Working) (w' : Working) (ch : Bool)
    (h : singletonSubstitution w = Except.ok (w', ch)) : inward w w' := by
  unfold singletonSubstitution at h
  injection h with h
  have hw : w' = (substFirst w (List.range w.vars.length)).1 := (congrArg Prod.fst h).symm
  rw [hw]
  exact substFirst_inward _ w

theorem duplicateRemoval_inward (w : Working) (w' : Working) (ch : Bool)
    (h : duplicateRemoval w = Except.ok (w', ch)) : inward w w' := by
  unfold duplicateRemoval at h
  cases hf : dedupFold [] w.constrs with
  | error e => rw [hf] at h; cases h
  | ok p =>
      obtain ⟨cs, ch0⟩ := p
      rw [hf] at h
      simp only [] at h
      cases h
      exact inward_of_vars_eq w _ rfl

theorem runTechnique_inward (t : Technique) (w : Working) (w' : Working) (ch : Bool)
    (h : runTechnique t w = Except.ok (w', ch)) : inward w w' := by
  cases t with
  | boundProp => exact (boundPropagation_propInv w w' ch h).1
  | implicitFix => exact implicitFixing_inward w w' ch h
  | trivialC => exact trivialRemoval_inward w w' ch h
  | singletonSub => exact singletonSubstitution_inward w w' ch h
  | duplicateC => exact duplicateRemoval_inward w w' ch h

/- ===== reachability during a presolve run ===== -/

/-- A state of the working model reached from another one by zero or more
technique executions. -/
inductive Reaches : Working → Working → Prop
  | refl (w : Working) : Reaches w w
  | step (t : Technique) (w w' w'' : Working) (ch : Bool)
      (h : runTechnique t w = Except.ok (w', ch)) (h2 : Reaches w' w'') : Reaches w w''

theorem Reaches.trans (w1 w2 w3 : Working) (h1 : Reaches w1 w2) (h2 : Reaches w2 w3) :
    Reaches w1 w3 := by
  induction h1 with
  | refl w => exact h2
  | step t w w' w'' ch h hr ih => exact Reaches.step t w w' w3 ch h (ih h2)

theorem runPass_reaches (ts : List Technique) :
    ∀ (w w' : Working) (ch : Bool), runPass w ts = Except.ok (w', ch) → Reaches w w' := by
  induction ts with
  | nil =>
      intro w w' ch h
      unfold runPass at h
      cases h
      exact Reaches.refl w
  | cons t rest ih =>
      intro w w' ch h
      unfold runPass at h
      cases h1 : runTechnique t w with
      | error e => rw [h1] at h; cases h
      | ok p1 =>
          obtain ⟨w1, ch1⟩ := p1
          rw [h1] at h
          simp only [] at h
          cases h2 : runPass w1 rest with
          | error e => rw [h2] at h; cases h
          | ok p2 =>
              obtain ⟨w2, ch2⟩ := p2
              rw [h2] at h
              simp only [] at h
              cases h
              exact Reaches.step t w w1 _ ch1 h1 (ih _ _ _ h2)

theorem runLoop_reaches (ts : List Technique) (fuel : Nat) :
    ∀ (w w' : Working), runLoop ts fuel w = Except.ok w' → Reaches w w' := by
  induction fuel with
  | zero =>
      intro w w' h
      unfold runLoop at h
      cases h
      exact Reaches.refl w
  | succ n ih =>
      intro w w' h
      unfold runLoop at h
      cases h1 : runPass w ts with
      | error e => rw [h1] at h; cases h
      | ok p1 =>
          obtain ⟨w1, ch1⟩ := p1
          rw [h1] at h
          simp only [] at h
          cases ch1 with
          | true =>
              rw [if_pos rfl] at h
              exact Reaches.trans _ _ _ (runPass_reaches ts w w1 true h1) (ih w1 w' h)
          | false =>
              rw [if_neg (by simp)] at h
              cases h
              exact runPass_reaches ts w _ false h1

theorem reaches_inward (w w' : Working) (h : Reaches w w') : inward w w' := by
  induction h with
  | refl w => exact inward_refl w
  | step t w w1 w2 ch hstep hr ih =>
      exact inward_trans _ _ _ (runTechnique_inward t w w1 ch hstep) ih

/- ===== infeasibility of a bound-violating constraint ===== -/

/-- The constraint x at most 3, as placed in a model by the infeasibility
test of the spec. -/
def xConstr (x : Nat) : Constr :=
  { terms := [(x, 1)], offset := 0, sense := Sense.le, rhs := 3 }

theorem roundUpper_three (t : Vartype) : roundUpper t 3 = 3 := by
  cases t <;> decide

theorem tightenUpper_three_infeasible (w : Working) (x : Nat) (v : Var) (l : Frac)
    (hv : w.getVar x = some v) (hlb : v.lb = some l) (hl : (5 : ℚ) ≤ l.toRat)
    (hcons : consistentVar v = true) :
    tightenUpper w x 3 = Except.error () := by
  unfold tightenUpper
  rw [hv]
  simp only []
  have h3 : roundUpper v.vtype 3 = 3 := roundUpper_three v.vtype
  rw [h3]
  have himp : ubImproves v 3 = true := by
    unfold ubImproves
    cases hub : v.ub with
    | none => rfl
    | some u =>
        unfold consistentVar at hcons
        rw [hlb, hub] at hcons
        simp only [] at hcons
        rw [Frac.blt_iff]
        have hlu := (Frac.ble_iff l u).mp hcons
        rw [Frac.toRat_ofNat 3]
        push_cast
        linarith
  have hnle : lbLeQ v.lb 3 = false := by
    rw [hlb]
    show Frac.ble l 3 = false
    rw [Bool.eq_false_iff]
    intro hle
    have := (Frac.ble_iff l 3).mp hle
    rw [Frac.toRat_ofNat 3] at this
    push_cast at this
    linarith
  rw [himp, hnle]
  simp


theorem propagateConstr_xConstr_error (w : Working) (x : Nat)
    (htu : tightenUpper w x 3 = Except.error ()) :
    propagateConstr w (xConstr x) = Except.error () := by
  have hb : ((3 : Frac) - 0 - (0 : Frac)) / 1 = (3 : Frac) := by decide
  unfold propagateConstr xConstr
  unfold propagateTerms
  simp only [List.nil_append]
  unfold propagateTerm
  simp only []
  unfold propagateUpperFromLe
  rw [show ((1 : Frac).isZero) = false from rfl]
  simp only [Bool.false_eq_true, if_false]
  rw [show sumMin w [] = some 0 from rfl]
  simp only []
  rw [show ((1 : Frac).isPos) = true from rfl, if_pos rfl]
  rw [hb, htu]

/-- During the presolve run of the infeasibility test, variable x keeps a
finite lower bound of at least five and the model keeps consistent bounds. -/
def xGood (x : Nat) (w : Working) : Prop :=
  consistentW w ∧ ∃ v l, w.getVar x = some v ∧ v.lb = some l ∧ (5 : ℚ) ≤ l.toRat

theorem propInv_xGood (x : Nat) (w w' : Working) (hp : propInv w w') (hg : xGood x w) :
    xGood x w' := by
  obtain ⟨hc, v, l, hv, hlb, hl⟩ := hg
  obtain ⟨v', hv'⟩ := hp.2.1 x v hv
  refine ⟨hp.2.2 hc, v', ?_⟩
  obtain ⟨v0, hv0, hlbLe, _⟩ := hp.1.2 x v' hv'
  rw [hv] at hv0
  injection hv0 with hv0
  subst hv0
  rw [hlb] at hlbLe
  cases hlb' : v'.lb with
  | none => rw [hlb'] at hlbLe; simp [lbLe] at hlbLe
  | some l' =>
      rw [hlb'] at hlbLe
      refine ⟨l', hv', rfl, ?_⟩
      have hll' := (Frac.ble_iff l l').mp hlbLe
      linarith

theorem propagateConstrs_xConstr_error (x : Nat) (cs : List Constr) :
    ∀ w : Working, xConstr x ∈ cs → xGood x w → propagateConstrs w cs = Except.error () := by
  induction cs with
  | nil => intro w hmem hg; cases hmem
  | cons c rest ih =>
      intro w hmem hg
      unfold propagateConstrs
      by_cases hcx : c = xConstr x
      · subst hcx
        obtain ⟨hc, v, l, hv, hlb, hl⟩ := hg
        have herr := propagateConstr_xConstr_error w x
          (tightenUpper_three_infeasible w x v l hv hlb hl (hc x v hv))
        rw [herr]
      · have hmem' : xConstr x ∈ rest := by
          cases hmem with
          | head => exact absurd rfl hcx
          | tail _ hmm => exact hmm
        cases hpc : propagateConstr w c with
        | error e => cases e; rfl
        | ok p =>
            obtain ⟨w1, ch1⟩ := p
            simp only []
            have hg1 := propInv_xGood x w w1 (propagateConstr_propInv w c w1 ch1 hpc) hg
            rw [ih w1 hmem' hg1]

theorem runPass_default_error (w : Working) (h : boundPropagation w = Except.error ()) :
    runPass w defaultTechniques = Except.error () := by
  unfold defaultTechniques
  unfold runPass
  unfold runTechnique
  simp only []
  rw [h]

theorem runLoop_error_succ (ts : List Technique) (fuel : Nat) (w : Working)
    (h : runPass w ts = Except.error ()) : runLoop ts (fuel + 1) w = Except.error () := by
  unfold runLoop
  rw [h]

theorem ingest_getVar (c : Cqm) (i : Nat) : (ingest c).getVar i = c.vars[i]? := by
  unfold ingest Working.getVar
  simp only []
  rw [List.getElem?_map]
  cases c.vars[i]? <;> rfl

theorem applyEngine_of_loop_error (e : Engine) (hs : e.status = Status.ready)
    (hd : e.detachedFlag = false)
    (h : runLoop e.techniques iterationCap e.work = Except.error ()) :
    Engine.applyEngine e = ({ e with status := Status.infeasible }, some EngErr.infeasible) := by
  unfold Engine.applyEngine
  rw [hs]
  simp only []
  rw [hd]
  simp only [Bool.false_eq_true, if_false]
  rw [h]

/-- C3: for every well-formed model containing some variable x with a
constraint x at most 3 and a lower bound of at least 5 on x, running the
default presolve configuration surfaces the distinguished infeasible-model
error through the python wrapper, the engine ends in the INFEASIBLE state,
and hence never produces a reduced model. -/
theorem c3_infeasibility_correctness (c : Cqm) (mv : Bool) (x : Nat) (v : Var) (l : Frac)
    (hx : c.vars[x]? = some v) (hlb : v.lb = some l) (hl : (5 : ℚ) ≤ l.toRat)
    (hmem : xConstr x ∈ c.constrs)
    (hwf : ∀ (i : Nat) (u : Var), c.vars[i]? = some u → consistentVar u = true) :
    (Presolver.applyPy (Engine.loadDefaultPresolvers (presolverNew c mv).1)).2 =
        Except.error (PyError.infeasibleModelError infeasibleCqmMsg infeasibleMsg) ∧
    (Presolver.applyPy (Engine.loadDefaultPresolvers (presolverNew c mv).1)).1.status =
        Status.infeasible := by
  have hg : xGood x (ingest c) := by
    refine ⟨?_, v, l, ?_, hlb, hl⟩
    · intro i u hu
      rw [ingest_getVar c i] at hu
      exact hwf i u hu
    · rw [ingest_getVar c x]
      exact hx
  have hbp : boundPropagation (ingest c) = Except.error () := by
    unfold boundPropagation
    exact propagateConstrs_xConstr_error x c.constrs (ingest c) hmem hg
  have hloop : runLoop defaultTechniques iterationCap (ingest c) = Except.error () := by
    rw [show iterationCap = 63 + 1 from rfl]
    exact runLoop_error_succ defaultTechniques 63 (ingest c) (runPass_default_error _ hbp)
  have happ : Engine.applyEngine (Engine.loadDefaultPresolvers (presolverNew c mv).1) =
      ({ work := ingest c, techniques := defaultTechniques, status := Status.infeasible,
         detachedFlag := false }, some EngErr.infeasible) := by
    have he : Engine.loadDefaultPresolvers (presolverNew c mv).1 =
        { work := ingest c, techniques := defaultTechniques, status := Status.ready,
          detachedFlag := false } := rfl
    rw [he]
    exact applyEngine_of_loop_error _ rfl rfl hloop
  refine ⟨?_, ?_⟩
  · unfold Presolver.applyPy
    rw [happ]
    rfl
  · unfold Presolver.applyPy
    rw [happ]

/-- A concrete instance of the infeasibility test: x has bounds five to ten
and the single constraint forces x at most three. -/
def infeasibleExampleCqm : Cqm :=
  { vars := [{ vtype := Vartype.integer, lb := some 5, ub := some 10 }]
    constrs := [xConstr 0]
    objTerms := [(0, 1)]
    objOffset := 0 }

/-- Witness for C3 at a concrete input. -/
theorem c3_infeasibility_correctness_witness :
    (Presolver.applyPy (Engine.loadDefaultPresolvers (presolverNew infeasibleExampleCqm false).1)).2 =
        Except.error (PyError.infeasibleModelError infeasibleCqmMsg infeasibleMsg) ∧
    (Presolver.applyPy (Engine.loadDefaultPresolvers (presolverNew infeasibleExampleCqm false).1)).1.status =
        Status.infeasible :=
  c3_infeasibility_correctness infeasibleExampleCqm false 0
    { vtype := Vartype.integer, lb := some 5, ub := some 10 } 5
    (by decide) rfl (by rw [Frac.toRat_ofNat 5]; norm_num) (by decide)
    (fun i u hu => by
      cases i with
      | zero =>
          cases hu
          decide
      | succ n => cases hu)

/- ===== scheduler and lifecycle lemmas ===== -/

theorem applyEngine_converged (e : Engine) (hs : e.status = Status.converged)
    (hd : e.detachedFlag = false) : Engine.applyEngine e = (e, none) := by
  unfold Engine.applyEngine
  rw [hs]
  simp only []
  rw [hd]
  simp

theorem applyEngine_fst_detached (e : Engine) (h : e.detachedFlag = true) :
    (Engine.applyEngine e).1 = e := by
  unfold Engine.applyEngine
  cases hs : e.status with
  | infeasible => rfl
  | converged => rw [h]; rfl
  | ready => rw [h]; rfl

theorem stepOp_detached (e : Engine) (op : EngineOp) (h : e.detachedFlag = true) :
    (stepOp e op).detachedFlag = true := by
  cases op with
  | opApply =>
      show (Engine.applyEngine e).1.detachedFlag = true
      rw [applyEngine_fst_detached e h]
      exact h
  | opDetach =>
      show (Engine.detachModel e).2.detachedFlag = true
      unfold Engine.detachModel
      simp [h]
  | opLoadDefault =>
      show (Engine.loadDefaultPresolvers e).detachedFlag = true
      unfold Engine.loadDefaultPresolvers
      split <;> exact h
  | opConfigure ts =>
      show (Engine.configure e ts).detachedFlag = true
      unfold Engine.configure
      split <;> exact h

theorem runOps_detached (ops : List EngineOp) :
    ∀ e : Engine, e.detachedFlag = true → (runOps e ops).detachedFlag = true := by
  induction ops with
  | nil => intro e h; exact h
  | cons op rest ih => intro e h; exact ih (stepOp e op) (stepOp_detached e op h)

/- ===== claim theorems ===== -/

/-- C4: at every point during a presolve run (any chain of technique
executions, and in particular any run of the presolve loop), every
variable's lower bound is non-decreasing and its upper bound is
non-increasing: bounds only move inward. -/
theorem c4_bound_monotonicity :
    (∀ w w' : Working, Reaches w w' → boundsInward w w') ∧
    (∀ (ts : List Technique) (fuel : Nat) (w w' : Working),
        runLoop ts fuel w = Except.ok w' → Reaches w w') :=
  ⟨fun w w' h => boundsInward_of_inward w w' (reaches_inward w w' h),
   fun ts fuel w w' h => runLoop_reaches ts fuel w w' h⟩

/-- A small working model used to exhibit one bound propagation step. -/
def stepExampleWorking : Working :=
  { vars := [some { vtype := Vartype.integer, lb := some 0, ub := some 4 }]
    constrs := [{ terms := [(0, 1)], offset := 0, sense := Sense.le, rhs := 2 }]
    objTerms := []
    objOffset := 0
    records := [] }

/-- The model after that step: the upper bound tightened from four to two. -/
def stepExampleWorking1 : Working :=
  { vars := [some { vtype := Vartype.integer, lb := some 0, ub := some 2 }]
    constrs := [{ terms := [(0, 1)], offset := 0, sense := Sense.le, rhs := 2 }]
    objTerms := []
    objOffset := 0
    records := [] }

/-- Witness for C4 at a concrete one-step run. -/
theorem c4_bound_monotonicity_witness :
    boundsInward stepExampleWorking stepExampleWorking1 :=
  c4_bound_monotonicity.1 stepExampleWorking stepExampleWorking1
    (Reaches.step Technique.boundProp stepExampleWorking stepExampleWorking1
      stepExampleWorking1 true (by rfl) (Reaches.refl stepExampleWorking1))

/-- C5: once apply has converged, invoking apply again is a no-op: it
returns the very same engine state (same variable count, constraint count
and bounds) with no error. -/
theorem c5_apply_idempotent (e e' : Engine) (h : Engine.applyEngine e = (e', none)) :
    Engine.applyEngine e' = (e', none) := by
  unfold Engine.applyEngine at h
  cases hs : e.status with
  | infeasible =>
      rw [hs] at h
      simp at h
  | converged =>
      rw [hs] at h
      simp only [] at h
      cases hd : e.detachedFlag with
      | true => rw [hd] at h; simp at h
      | false =>
          rw [hd] at h
          simp only [Bool.false_eq_true, if_false] at h
          cases h
          exact applyEngine_converged e hs hd
  | ready =>
      rw [hs] at h
      simp only [] at h
      cases hd : e.detachedFlag with
      | true => rw [hd] at h; simp at h
      | false =>
          rw [hd] at h
          simp only [Bool.false_eq_true, if_false] at h
          cases hrl : runLoop e.techniques iterationCap e.work with
          | ok w2 =>
              rw [hrl] at h
              simp only [] at h
              cases h
              exact applyEngine_converged _ rfl rfl
          | error u =>
              rw [hrl] at h
              simp at h

/-- The fresh engine on the empty model, after one converged apply. -/
def convergedExampleEngine : Engine :=
  { work := ingest emptyCqm
    techniques := []
    status := Status.converged
    detachedFlag := false }

/-- Witness for C5 at a concrete converged engine. -/
theorem c5_apply_idempotent_witness :
    Engine.applyEngine convergedExampleEngine = (convergedExampleEngine, none) :=
  c5_apply_idempotent (presolverNew emptyCqm false).1 _ rfl

/-- C6: after infeasibility has been declared the state is terminal: apply
re-raises the same infeasible error without re-running anything and leaves
the engine unchanged, the python wrapper surfaces the same
InfeasibleModelError again, and configuration changes are rejected. -/
theorem c6_infeasible_state_terminal (e : Engine) (ts : List Technique)
    (h : e.status = Status.infeasible) :
    Engine.applyEngine e = (e, some EngErr.infeasible) ∧
    Presolver.applyPy e =
      (e, Except.error (PyError.infeasibleModelError infeasibleCqmMsg infeasibleMsg)) ∧
    Engine.configure e ts = e ∧
    Engine.loadDefaultPresolvers e = e := by
  have ha : Engine.applyEngine e = (e, some EngErr.infeasible) := by
    unfold Engine.applyEngine
    rw [h]
  refine ⟨ha, ?_, ?_, ?_⟩
  · unfold Presolver.applyPy
    rw [ha]
    rfl
  · unfold Engine.configure
    rw [h]
    simp
  · unfold Engine.loadDefaultPresolvers
    rw [h]
    simp

/-- An engine that has declared infeasibility. -/
def terminalExampleEngine : Engine :=
  { work := ingest emptyCqm
    techniques := defaultTechniques
    status := Status.infeasible
    detachedFlag := false }

/-- Witness for C6 at a concrete infeasible engine. -/
theorem c6_infeasible_state_terminal_witness :
    Engine.applyEngine terminalExampleEngine = (terminalExampleEngine, some EngErr.infeasible) ∧
    Presolver.applyPy terminalExampleEngine =
      (terminalExampleEngine,
       Except.error (PyError.infeasibleModelError infeasibleCqmMsg infeasibleMsg)) ∧
    Engine.configure terminalExampleEngine [] = terminalExampleEngine ∧
    Engine.loadDefaultPresolvers terminalExampleEngine = terminalExampleEngine :=
  c6_infeasible_state_terminal terminalExampleEngine [] rfl

/-- C7: constructing with move leaves the caller's model empty (zero
variables, zero constraints, zero objective terms) immediately after
construction, and constructing without move leaves it untouched; the
caller's model is returned at construction time, so later engine activity
cannot affect it. -/
theorem c7_move_semantics (c : Cqm) :
    (presolverNew c true).2 = emptyCqm ∧
    (presolverNew c true).2.vars.length = 0 ∧
    (presolverNew c true).2.constrs.length = 0 ∧
    (presolverNew c true).2.objTerms.length = 0 ∧
    (presolverNew c false).2 = c :=
  ⟨rfl, rfl, rfl, rfl, rfl⟩

/-- C8: detach succeeds at most once: whatever is done to the engine
afterwards, a second detach_model raises UseAfterDetach, and the model
returned by the first call is the compaction of the store at detach time
(a standalone value the engine holds no reference to). -/
theorem c8_detach_once (e : Engine) (m : Cqm) (e' : Engine) (ops : List EngineOp)
    (h : Engine.detachModel e = (Except.ok m, e')) :
    m = detachCqm e.work ∧
    (Engine.detachModel (runOps e' ops)).1 = Except.error EngErr.useAfterDetach := by
  unfold Engine.detachModel at h
  cases hd : e.detachedFlag with
  | true => rw [hd] at h; simp at h
  | false =>
      rw [hd] at h
      simp only [Bool.false_eq_true, if_false] at h
      cases h
      refine ⟨rfl, ?_⟩
      have hflag : (runOps { e with detachedFlag := true } ops).detachedFlag = true :=
        runOps_detached ops _ rfl
      unfold Engine.detachModel
      rw [hflag]
      rfl

/-- The fresh engine on the empty model, after its model has been detached. -/
def detachedExampleEngine : Engine :=
  { work := ingest emptyCqm
    techniques := []
    status := Status.ready
    detachedFlag := true }

/-- Witness for C8 at a concrete engine with an apply after the detach. -/
theorem c8_detach_once_witness :
    detachCqm (ingest emptyCqm) = detachCqm ((presolverNew emptyCqm false).1).work ∧
    (Engine.detachModel (runOps detachedExampleEngine [EngineOp.opApply])).1 =
      Except.error EngErr.useAfterDetach :=
  c8_detach_once (presolverNew emptyCqm false).1 (detachCqm (ingest emptyCqm))
    detachedExampleEngine [EngineOp.opApply] rfl

theorem c1_key (r : Option EngErr) :
    (∃ m cse, Presolver.apply (cyOutcome r) = Except.error (PyError.infeasibleModelError m cse)) ↔
      r = some EngErr.infeasible := by
  cases r with
  | none =>
      constructor
      · rintro ⟨m, cse, hm⟩
        rw [show Presolver.apply (cyOutcome none) = Except.ok () from rfl] at hm
        cases hm
      · intro hh
        cases hh
  | some err =>
      cases err with
      | infeasible =>
          constructor
          · intro _
            rfl
          · intro _
            exact ⟨infeasibleCqmMsg, infeasibleMsg, rfl⟩
      | useAfterDetach =>
          constructor
          · rintro ⟨m, cse, hm⟩
            rw [show Presolver.apply (cyOutcome (some EngErr.useAfterDetach)) =
                Except.error (PyError.runtimeError detachedMsg) from rfl] at hm
            cases hm
          · intro hh
            cases hh
      | invalidConfiguration =>
          constructor
          · rintro ⟨m, cse, hm⟩
            rw [show Presolver.apply (cyOutcome (some EngErr.invalidConfiguration)) =
                Except.error (PyError.runtimeError invalidConfigMsg) from rfl] at hm
            cases hm
          · intro hh
            cases hh

/-- C1: the python-level apply surfaces the distinguished InfeasibleModelError
exactly when the engine failed with the infeasibility condition: a successful
run surfaces no error, and every other engine failure kind (use after detach,
invalid configuration) surfaces as a different error kind, never as the
infeasible condition. -/
theorem c1_infeasible_error_distinguished :
    (∀ e : Engine,
        (∃ m cse, (Presolver.applyPy e).2 = Except.error (PyError.infeasibleModelError m cse)) ↔
          (Engine.applyEngine e).2 = some EngErr.infeasible) ∧
    (∀ r : Option EngErr,
        (∃ m cse, Presolver.apply (cyOutcome r) =
            Except.error (PyError.infeasibleModelError m cse)) ↔
          r = some EngErr.infeasible) :=
  ⟨fun e => c1_key (Engine.applyEngine e).2, fun r => c1_key r⟩

/-- The fixing example of the spec: objective i plus j, integer i in minus
five to five, integer j in five to ten, one constraint j at most five. -/
def fixingExampleCqm : Cqm :=
  { vars := [{ vtype := Vartype.integer, lb := some (-(5 : Frac)), ub := some 5 },
             { vtype := Vartype.integer, lb := some 5, ub := some 10 }]
    constrs := [{ terms := [(1, 1)], offset := 0, sense := Sense.le, rhs := 5 }]
    objTerms := [(0, 1), (1, 1)]
    objOffset := 0 }

/-- The engine after default presolve of the fixing example: j is fixed at
five and recorded, its slot tombstoned, the constraint removed. -/
def fixingExampleReduced : Engine :=
  { work :=
      { vars := [some { vtype := Vartype.integer, lb := some (-(5 : Frac)), ub := some 5 }, none]
        constrs := []
        objTerms := [(0, 1)]
        objOffset := 5
        records := [RestoreRecord.fixed 1 5] }
    techniques := defaultTechniques
    status := Status.converged
    detachedFlag := false }

/-- The detached reduced model of the fixing example: one variable, no
constraints. -/
def fixingExampleDetached : Cqm :=
  { vars := [{ vtype := Vartype.integer, lb := some (-(5 : Frac)), ub := some 5 }]
    constrs := []
    objTerms := [(0, 1)]
    objOffset := 5 }

/-- C2: default presolve of the fixing example fixes j at five and removes
the constraint, detach_model yields a model with exactly one variable and
zero constraints, and restoring any reduced sample assigning v to i yields
the original-space sample with i mapped to v and j mapped to five. -/
theorem c2_fixing_example :
    Presolver.applyPy (Engine.loadDefaultPresolvers (presolverNew fixingExampleCqm false).1) =
      (fixingExampleReduced, Except.ok ()) ∧
    Engine.detachModel fixingExampleReduced =
      (Except.ok fixingExampleDetached, { fixingExampleReduced with detachedFlag := true }) ∧
    fixingExampleDetached.vars.length = 1 ∧
    fixingExampleDetached.constrs.length = 0 ∧
    (∀ v : Frac,
      Engine.restore fixingExampleReduced [(0, v)] = [(1, 5), (0, v)] ∧
      lookupQ (Engine.restore fixingExampleReduced [(0, v)]) 0 = some v ∧
      lookupQ (Engine.restore fixingExampleReduced [(0, v)]) 1 = some 5) :=
  ⟨rfl, rfl, rfl, rfl, fun v => ⟨rfl, rfl, rfl⟩⟩

/-- C9: the wrapper raises InfeasibleModelError exactly on a RuntimeError
whose message compares equal to the exact string infeasible; any other
RuntimeError propagates unchanged with the same message; the raised
InfeasibleModelError carries the original message as its cause. -/
theorem c9_wrapper_string_translation :
    (∀ o : CyApplyOutcome,
        (∃ m cse, Presolver.apply o = Except.error (PyError.infeasibleModelError m cse)) ↔
          o = CyApplyOutcome.runtimeError infeasibleMsg) ∧
    (∀ msg : String, msg ≠ infeasibleMsg →
        Presolver.apply (CyApplyOutcome.runtimeError msg) =
          Except.error (PyError.runtimeError msg)) ∧
    Presolver.apply (CyApplyOutcome.runtimeError infeasibleMsg) =
      Except.error (PyError.infeasibleModelError infeasibleCqmMsg infeasibleMsg) := by
  refine ⟨?_, ?_, rfl⟩
  · intro o
    cases o with
    | ok =>
        constructor
        · rintro ⟨m, cse, hm⟩
          cases hm
        · intro hh
          cases hh
    | runtimeError msg =>
        by_cases hmsg : msg = infeasibleMsg
        · subst hmsg
          constructor
          · intro _
            rfl
          · intro _
            exact ⟨infeasibleCqmMsg, infeasibleMsg, rfl⟩
        · constructor
          · rintro ⟨m, cse, hm⟩
            unfold Presolver.apply at hm
            simp only [] at hm
            rw [if_neg hmsg] at hm
            cases hm
          · intro hh
            injection hh with hh
            exact absurd hh hmsg
    | otherExc msg =>
        constructor
        · rintro ⟨m, cse, hm⟩
          cases hm
        · intro hh
          cases hh
  · intro msg hmsg
    unfold Presolver.apply
    simp only []
    rw [if_neg hmsg]

/-- Witness for C9 at a concrete RuntimeError with a different message. -/
theorem c9_wrapper_string_translation_witness :
    Presolver.apply (CyApplyOutcome.runtimeError detachedMsg) =
      Except.error (PyError.runtimeError detachedMsg) :=
  c9_wrapper_string_translation.2.1 detachedMsg (by decide)

/-- C10: InfeasibleModelError is a subclass of ValueError, so every handler
that catches ValueError instances also catches the infeasible-model
condition raised by apply. -/
theorem c10_infeasible_subclass_valueerror :
    isSubclass PyExcClass.infeasibleModelError PyExcClass.valueError = true ∧
    (∀ hcls : PyExcClass, catches hcls PyExcClass.valueError = true →
        catches hcls PyExcClass.infeasibleModelError = true) := by
  refine ⟨by decide, ?_⟩
  intro hcls
  cases hcls <;> decide

/-- Witness for C10 at the ValueError handler itself. -/
theorem c10_infeasible_subclass_valueerror_witness :
    catches PyExcClass.valueError PyExcClass.infeasibleModelError = true :=
  c10_infeasible_subclass_valueerror.2 PyExcClass.valueError (by decide)
